import Mathlib

/-!
Verification development for the manim-eng wire-routing and voltage-arc geometry.

The Python sources operate on 3-component numpy vectors lying in the z = 0 plane.
We embed them as `Vec3` over the exact reals (floating-point arithmetic is
idealised as real arithmetic; the numeric tolerances that appear in the source,
such as the `1e-8` absolute tolerance of `np.isclose(x, 0)`, are kept literally).
-/

noncomputable section

open scoped Classical

/-- A 3-component vector, mirroring the `Point3D`/`Vector3D` numpy arrays of the
source (all geometry lives in the z = 0 plane). -/
@[ext]
structure Vec3 where
  x : ℝ
  y : ℝ
  z : ℝ

namespace Vec3

instance : Add Vec3 := ⟨fun a b => ⟨a.x + b.x, a.y + b.y, a.z + b.z⟩⟩

instance : Sub Vec3 := ⟨fun a b => ⟨a.x - b.x, a.y - b.y, a.z - b.z⟩⟩

instance : SMul ℝ Vec3 := ⟨fun r v => ⟨r * v.x, r * v.y, r * v.z⟩⟩

instance : Zero Vec3 := ⟨⟨0, 0, 0⟩⟩

@[simp] theorem add_x (a b : Vec3) : (a + b).x = a.x + b.x := rfl
@[simp] theorem add_y (a b : Vec3) : (a + b).y = a.y + b.y := rfl
@[simp] theorem add_z (a b : Vec3) : (a + b).z = a.z + b.z := rfl
@[simp] theorem sub_x (a b : Vec3) : (a - b).x = a.x - b.x := rfl
@[simp] theorem sub_y (a b : Vec3) : (a - b).y = a.y - b.y := rfl
@[simp] theorem sub_z (a b : Vec3) : (a - b).z = a.z - b.z := rfl
@[simp] theorem smul_x (r : ℝ) (v : Vec3) : (r • v).x = r * v.x := rfl
@[simp] theorem smul_y (r : ℝ) (v : Vec3) : (r • v).y = r * v.y := rfl
@[simp] theorem smul_z (r : ℝ) (v : Vec3) : (r • v).z = r * v.z := rfl
@[simp] theorem zero_x : (0 : Vec3).x = 0 := rfl
@[simp] theorem zero_y : (0 : Vec3).y = 0 := rfl
@[simp] theorem zero_z : (0 : Vec3).z = 0 := rfl
@[simp] theorem mk_x (a b c : ℝ) : (Vec3.mk a b c).x = a := rfl
@[simp] theorem mk_y (a b c : ℝ) : (Vec3.mk a b c).y = b := rfl
@[simp] theorem mk_z (a b c : ℝ) : (Vec3.mk a b c).z = c := rfl

end Vec3

/-- `np.dot` on 3-vectors. -/
def dot3 (a b : Vec3) : ℝ := a.x * b.x + a.y * b.y + a.z * b.z

/-- `np.cross` on 3-vectors. -/
def cross3 (a b : Vec3) : Vec3 :=
  ⟨a.y * b.z - a.z * b.y, a.z * b.x - a.x * b.z, a.x * b.y - a.y * b.x⟩

/-- `np.linalg.norm` on 3-vectors. -/
def norm3 (v : Vec3) : ℝ := Real.sqrt (v.x ^ 2 + v.y ^ 2 + v.z ^ 2)

/-- `manim.OUT`, the unit vector out of the drawing plane. -/
def mnOUT : Vec3 := ⟨0, 0, 1⟩

/-- `manim_eng._utils.normalised`: `vector / np.linalg.norm(vector)`. -/
def normalised (v : Vec3) : Vec3 := (1 / norm3 v) • v

/-- `manim.normalize`: returns `v / ‖v‖` when the norm is positive, and the zero
vector otherwise. -/
def mnNormalize (v : Vec3) : Vec3 :=
  if 0 < norm3 v then (1 / norm3 v) • v else 0

/-- `manim.midpoint` of two points. -/
def midpoint3 (a b : Vec3) : Vec3 := ((1 : ℝ) / 2) • (a + b)

/-- `manim.rotate_vector(v, angle)`: in-plane rotation about `OUT`. -/
def rotateVector (v : Vec3) (angle : ℝ) : Vec3 :=
  ⟨Real.cos angle * v.x - Real.sin angle * v.y,
   Real.sin angle * v.x + Real.cos angle * v.y,
   v.z⟩

/-- `numpy`-style floating modulus on the reals: `a % b = a - b * ⌊a / b⌋`
(for positive `b` the result lies in `[0, b)`). -/
def rmod (a b : ℝ) : ℝ := a - b * (⌊a / b⌋ : ℤ)

/-- `np.arctan2 y x` (equivalently `np.angle(complex x y)`), the angle of the
planar vector `(x, y)` measured anticlockwise from the positive horizontal. -/
def atan2 (y x : ℝ) : ℝ :=
  if 0 < x then Real.arctan (y / x)
  else if x < 0 then
    (if 0 ≤ y then Real.arctan (y / x) + Real.pi else Real.arctan (y / x) - Real.pi)
  else
    (if 0 < y then Real.pi / 2 else if y < 0 then -(Real.pi / 2) else 0)

/-- `manim.angle_of_vector`: angle of the x/y-projection of the vector. -/
def angleOfVector (v : Vec3) : ℝ := atan2 v.y v.x

/-- `np.sign`. -/
def rsign (r : ℝ) : ℝ := Real.sign r

/-- The vector `np.zeros_like(v)` with the entry at `np.argmax(np.abs(v))` set to
`value` (numpy's `argmax` returns the first index attaining the maximum). -/
def absArgmaxSet (v : Vec3) (value : ℝ) : Vec3 :=
  if |v.y| ≤ |v.x| ∧ |v.z| ≤ |v.x| then ⟨value * rsign v.x, 0, 0⟩
  else if |v.z| ≤ |v.y| then ⟨0, value * rsign v.y, 0⟩
  else ⟨0, 0, value * rsign v.z⟩

/-- `manim_eng._utils.cardinalised(vector, margin)`: snap `vector` to the nearest
cardinal direction whenever its angle with the positive horizontal is within
`margin` of a multiple of `π/2`, keeping its magnitude. -/
def cardinalised (v : Vec3) (margin : ℝ) : Vec3 :=
  if rmod (angleOfVector v + margin) (Real.pi / 2) ≤ 2 * margin then
    absArgmaxSet v (norm3 v)
  else v

/-- Modelled from the spec: the default angular tolerance of the cardinal snap
used by `Wire.get_corner_points`, which calls `cardinalised` with no explicit
margin.  The module `manim_eng/_utils/utils.py` carrying the default value is
absent from the sources (only its callers and tests are present).  The spec
describes the tolerance as configurable with a default, and the repository's own
test `test_cardinalised_no_margin_given` requires a vector at 45 degrees from
the horizontal to snap under the default margin, which forces the default to be
`π/4`. (The spec's "≈5°" figure matches `mark_cardinal_alignment_margin`, the
unrelated mark-alignment tolerance.) -/
def defaultCardinalMargin : ℝ := Real.pi / 4

-- Basic facts about `rmod`.

theorem rmod_nonneg (a : ℝ) {b : ℝ} (hb : 0 < b) : 0 ≤ rmod a b := by
  have h := Int.fract_nonneg (a / b)
  have : rmod a b = b * Int.fract (a / b) := by
    unfold rmod Int.fract
    field_simp
  rw [this]
  positivity

theorem rmod_lt (a : ℝ) {b : ℝ} (hb : 0 < b) : rmod a b < b := by
  have h := Int.fract_lt_one (a / b)
  have heq : rmod a b = b * Int.fract (a / b) := by
    unfold rmod Int.fract
    field_simp
  rw [heq]
  calc b * Int.fract (a / b) < b * 1 := by
        exact mul_lt_mul_of_pos_left h hb
    _ = b := mul_one b

theorem rmod_eq_self {a b : ℝ} (h0 : 0 ≤ a) (hab : a < b) : rmod a b = a := by
  have hb : 0 < b := lt_of_le_of_lt h0 hab
  have hfloor : ⌊a / b⌋ = 0 := by
    rw [Int.floor_eq_zero_iff]
    constructor
    · positivity
    · rw [div_lt_one hb]; exact hab
  unfold rmod
  rw [hfloor]
  push_cast
  ring

theorem rmod_add_int_mul (a : ℝ) {b : ℝ} (hb : b ≠ 0) (k : ℤ) :
    rmod (a + k * b) b = rmod a b := by
  unfold rmod
  have hdiv : (a + k * b) / b = a / b + k := by field_simp
  rw [hdiv, Int.floor_add_int]
  push_cast
  ring

-- Facts about `norm3`, `rsign` and `atan2`.

theorem norm3_planar_unit {v : Vec3} (hz : v.z = 0) (hu : v.x ^ 2 + v.y ^ 2 = 1) :
    norm3 v = 1 := by
  unfold norm3
  rw [hz]
  rw [show v.x ^ 2 + v.y ^ 2 + (0:ℝ) ^ 2 = 1 by rw [← hu]; ring]
  exact Real.sqrt_one

theorem rsign_pm_one {r : ℝ} (hr : r ≠ 0) : rsign r = 1 ∨ rsign r = -1 := by
  rcases lt_trichotomy r 0 with h | h | h
  · right; exact Real.sign_of_neg h
  · exact absurd h hr
  · left; exact Real.sign_of_pos h

theorem rsign_mul_abs (r : ℝ) : |r| * rsign r = r := by
  unfold rsign
  rcases lt_trichotomy r 0 with h | h | h
  · rw [Real.sign_of_neg h, abs_of_neg h]; ring
  · rw [h]; simp
  · rw [Real.sign_of_pos h, abs_of_pos h]; ring

theorem atan2_zero_pos {a : ℝ} (ha : 0 < a) : atan2 0 a = 0 := by
  unfold atan2
  rw [if_pos ha, zero_div, Real.arctan_zero]

theorem atan2_zero_neg {a : ℝ} (ha : a < 0) : atan2 0 a = Real.pi := by
  unfold atan2
  rw [if_neg (by linarith), if_pos ha, if_pos le_rfl, zero_div, Real.arctan_zero,
    zero_add]

theorem atan2_pos_zero {a : ℝ} (ha : 0 < a) : atan2 a 0 = Real.pi / 2 := by
  unfold atan2
  rw [if_neg (lt_irrefl 0), if_neg (lt_irrefl 0), if_pos ha]

theorem atan2_neg_zero {a : ℝ} (ha : a < 0) : atan2 a 0 = -(Real.pi / 2) := by
  unfold atan2
  rw [if_neg (lt_irrefl 0), if_neg (lt_irrefl 0), if_neg (by linarith), if_pos ha]

theorem atan2_zero_zero : atan2 0 0 = 0 := by
  unfold atan2
  rw [if_neg (lt_irrefl 0), if_neg (lt_irrefl 0), if_neg (lt_irrefl 0),
    if_neg (lt_irrefl 0)]

theorem atan2_diag {a : ℝ} (ha : 0 < a) : atan2 a a = Real.pi / 4 := by
  unfold atan2
  rw [if_pos ha, div_self (ne_of_gt ha), Real.arctan_one]

-- Characterisation of the cardinal snap at the default (always-on) margin.

/-- With the default margin `π/4`, the snap condition of `cardinalised` holds for
every input vector, so every vector is snapped to the nearest cardinal axis. -/
theorem cardinalised_default_snaps (v : Vec3) :
    cardinalised v defaultCardinalMargin = absArgmaxSet v (norm3 v) := by
  unfold cardinalised defaultCardinalMargin
  rw [if_pos]
  have hb : (0:ℝ) < Real.pi / 2 := by positivity
  have h := rmod_lt (angleOfVector v + Real.pi / 4) hb
  linarith

/-- For a planar unit vector, `cardinalised` at the default margin yields the unit
cardinal vector along the axis of the largest component (ties going to the
horizontal, as numpy's `argmax` takes the first maximum). -/
theorem cardinalised_default_planar_unit {v : Vec3} (hz : v.z = 0)
    (hu : v.x ^ 2 + v.y ^ 2 = 1) :
    cardinalised v defaultCardinalMargin =
      if |v.y| ≤ |v.x| then ⟨rsign v.x, 0, 0⟩ else ⟨0, rsign v.y, 0⟩ := by
  rw [cardinalised_default_snaps, norm3_planar_unit hz hu]
  unfold absArgmaxSet
  rw [hz]
  by_cases hxy : |v.y| ≤ |v.x|
  · rw [if_pos ⟨hxy, by simp⟩, if_pos hxy, one_mul]
  · rw [if_neg (by tauto), if_pos (by simp [abs_nonneg]), if_neg hxy, one_mul]

/-- For a planar unit vector the snapped direction is one of the four unit
cardinal directions. -/
theorem cardinalised_default_cases {v : Vec3} (hz : v.z = 0)
    (hu : v.x ^ 2 + v.y ^ 2 = 1) :
    ∃ s : ℝ, (s = 1 ∨ s = -1) ∧
      (cardinalised v defaultCardinalMargin = ⟨s, 0, 0⟩ ∨
       cardinalised v defaultCardinalMargin = ⟨0, s, 0⟩) := by
  rw [cardinalised_default_planar_unit hz hu]
  by_cases hxy : |v.y| ≤ |v.x|
  · refine ⟨rsign v.x, ?_, ?_⟩
    · apply rsign_pm_one
      intro hx0
      rw [hx0] at hxy hu
      simp only [abs_zero, abs_nonpos_iff] at hxy
      rw [hxy] at hu
      norm_num at hu
    · left; rw [if_pos hxy]
  · refine ⟨rsign v.y, ?_, ?_⟩
    · apply rsign_pm_one
      intro hy0
      rw [hy0] at hxy
      simp [abs_nonneg] at hxy
    · right; rw [if_neg hxy]

-- The terminal data model and the wire router.

/-- `config_eng.symbol.terminal_length = 0.5 * bipole_width` with
`bipole_width = 1.0`. -/
def terminalLength : ℝ := 0.5 * 1.0

/-- A component terminal: a directed attachment point.  The `id` models Python
object identity (the source compares terminals with `==`, which for these
mobjects is identity).  `endPoint` and `direction` mirror the `Terminal.end` and
`Terminal.direction` properties of the source. -/
structure Terminal where
  id : ℕ
  endPoint : Vec3
  direction : Vec3

/-- `Terminal.__init__(position, direction)`: the direction is normalised and the
end point is `position + direction * terminal_length`. -/
def Terminal.make (id : ℕ) (position direction : Vec3) : Terminal :=
  { id := id
    endPoint := position + terminalLength • ((1 / norm3 direction) • direction)
    direction := (1 / norm3 direction) • direction }

/-- `manim.find_intersection` (single-pair case): the intersection of the line
through `p0` with direction `v0` and the line through `p1` with direction `v1`,
computed via `normal = v1 × (v0 × v1)`, `denom = max(v0 · normal, 1e-5)`,
`p0 + ((p1 - p0) · normal) * v0 / denom`. -/
def findIntersection (p0 v0 p1 v1 : Vec3) : Vec3 :=
  let normal := cross3 v1 (cross3 v0 v1)
  let denom := max (dot3 v0 normal) (1e-5)
  p0 + (dot3 (p1 - p0) normal / denom) • v0

/-- `Wire.__point_is_behind_plane`: the signed half-space test
`normal · (point - point_on_plane) < 0`. -/
def pointIsBehindPlane (point pointOnPlane normal : Vec3) : Prop :=
  dot3 normal (point - pointOnPlane) < 0

/-- `Wire.__move_point_forward_of_plane`: move `point` onto or in front of the
plane through `pointOnPlane` with the given `normal`. -/
def movePointForwardOfPlane (point pointOnPlane normal : Vec3) : Vec3 :=
  let distanceToMove := -dot3 normal (point - pointOnPlane)
  if distanceToMove ≤ 0 then point
  else point + distanceToMove • normalised normal

/-- `Wire.__get_corner_points_for_perpendicular_terminals`. -/
def cornerPointsPerpendicular (fromEnd toEnd fromDirection toDirection : Vec3) :
    List Vec3 :=
  let corner := findIntersection fromEnd fromDirection toEnd toDirection
  if pointIsBehindPlane corner fromEnd fromDirection ∨
      pointIsBehindPlane corner toEnd toDirection then
    -- Move the corner point to the other vertex of the box formed from the end
    -- of each terminal.
    if corner.x = fromEnd.x then [⟨toEnd.x, fromEnd.y, 0⟩]
    else [⟨fromEnd.x, toEnd.y, 0⟩]
  else [corner]

/-- `Wire.__get_corner_points_for_parallel_terminals`.  The source's
`if/elif/elif` ladder on the two behind-plane tests is rendered as the
selections below: in the both-behind case both directions are rotated a quarter
turn and the midpoint is untouched; in the single-behind cases the midpoint is
pushed forward of the offending plane and the directions are untouched. -/
def cornerPointsParallel (fromEnd toEnd fromDirection toDirection : Vec3) :
    List Vec3 :=
  let midpoint := midpoint3 fromEnd toEnd
  let toBehindFrom := pointIsBehindPlane toEnd fromEnd fromDirection
  let fromBehindTo := pointIsBehindPlane fromEnd toEnd toDirection
  let fromDir :=
    if toBehindFrom ∧ fromBehindTo then rotateVector fromDirection (Real.pi / 2)
    else fromDirection
  let toDir :=
    if toBehindFrom ∧ fromBehindTo then rotateVector toDirection (Real.pi / 2)
    else toDirection
  let mid :=
    if toBehindFrom ∧ fromBehindTo then midpoint
    else if toBehindFrom then movePointForwardOfPlane midpoint fromEnd fromDirection
    else if fromBehindTo then movePointForwardOfPlane midpoint toEnd toDirection
    else midpoint
  let perpendicularDirection := cross3 fromDir mnOUT
  [findIntersection mid perpendicularDirection fromEnd fromDir,
   findIntersection mid perpendicularDirection toEnd toDir]

/-- The cardinalised routing direction of a terminal:
`utils.cardinalised(terminal.direction)` with no explicit margin, as called by
`Wire.get_corner_points`. -/
def wireDirection (t : Terminal) : Vec3 :=
  cardinalised t.direction defaultCardinalMargin

/-- `Wire.get_corner_points`: cardinalise both directions (no explicit margin is
supplied, so the default applies), then branch on `np.isclose(dot, 0)`
(absolute tolerance `1e-8` at a zero reference). -/
def getCornerPoints (fromTerminal toTerminal : Terminal) : List Vec3 :=
  let fromDirection := wireDirection fromTerminal
  let toDirection := wireDirection toTerminal
  if |dot3 fromDirection toDirection| ≤ 1e-8 then
    cornerPointsPerpendicular fromTerminal.endPoint toTerminal.endPoint
      fromDirection toDirection
  else
    cornerPointsParallel fromTerminal.endPoint toTerminal.endPoint
      fromDirection toDirection

/-- The `ValueError` message of `_WireBase.__init__`. -/
def identicalTerminalsMessage : String :=
  "from_terminal and to_terminal are identical. Wires must have different terminals at each end."

/-- `_WireBase.__init__` / `Wire.__init__`: reject identical terminals (Python
`==` on these mobjects is object identity, modelled by the `id` field), then
construct the wire path. -/
def wireMake (fromTerminal toTerminal : Terminal) : Except String (List Vec3) :=
  if fromTerminal.id = toTerminal.id then Except.error identicalTerminalsMessage
  else Except.ok (getCornerPoints fromTerminal toTerminal)

/-- A segment of a routed path is axis-aligned: its endpoints lie in the same
plane and agree in the x- or in the y-coordinate (purely vertical or purely
horizontal). -/
def axisAligned (p q : Vec3) : Prop :=
  p.z = q.z ∧ (p.x = q.x ∨ p.y = q.y)

/-- The exit ray of base point `base` along direction `dir`. -/
def onRayFrom (base dir p : Vec3) : Prop :=
  ∃ s : ℝ, 0 ≤ s ∧ p = base + s • dir

-- Evaluation of `findIntersection` on cardinal direction pairs (the only pairs
-- the router feeds it, since the default margin snaps every direction).

theorem findIntersection_hv (p0 p1 : Vec3) {a b : ℝ} (ha : a ^ 2 = 1)
    (hb : b ^ 2 = 1) :
    findIntersection p0 ⟨a, 0, 0⟩ p1 ⟨0, b, 0⟩ = ⟨p1.x, p0.y, p0.z⟩ := by
  have hn : cross3 (⟨0, b, 0⟩ : Vec3) (cross3 ⟨a, 0, 0⟩ ⟨0, b, 0⟩) = ⟨a, 0, 0⟩ := by
    apply Vec3.ext
    · simp [cross3]; linear_combination a * hb
    · simp [cross3]
    · simp [cross3]
  have hd : dot3 (⟨a, 0, 0⟩ : Vec3) ⟨a, 0, 0⟩ = 1 := by
    simp [dot3]; linear_combination ha
  simp only [findIntersection]
  rw [hn, hd]
  rw [max_eq_left (by norm_num : (1e-5 : ℝ) ≤ 1)]
  apply Vec3.ext
  · simp [dot3]; linear_combination (p1.x - p0.x) * ha
  · simp [dot3]
  · simp [dot3]

theorem findIntersection_vh (p0 p1 : Vec3) {a b : ℝ} (ha : a ^ 2 = 1)
    (hb : b ^ 2 = 1) :
    findIntersection p0 ⟨0, a, 0⟩ p1 ⟨b, 0, 0⟩ = ⟨p0.x, p1.y, p0.z⟩ := by
  have hn : cross3 (⟨b, 0, 0⟩ : Vec3) (cross3 ⟨0, a, 0⟩ ⟨b, 0, 0⟩) = ⟨0, a, 0⟩ := by
    apply Vec3.ext
    · simp [cross3]
    · simp [cross3]; linear_combination a * hb
    · simp [cross3]
  have hd : dot3 (⟨0, a, 0⟩ : Vec3) ⟨0, a, 0⟩ = 1 := by
    simp [dot3]; linear_combination ha
  simp only [findIntersection]
  rw [hn, hd]
  rw [max_eq_left (by norm_num : (1e-5 : ℝ) ≤ 1)]
  apply Vec3.ext
  · simp [dot3]
  · simp [dot3]; linear_combination (p1.y - p0.y) * ha
  · simp [dot3]

theorem sq_one_of_pm {s : ℝ} (hs : s = 1 ∨ s = -1) : s ^ 2 = 1 := by
  rcases hs with h | h <;> rw [h] <;> norm_num

/-- C1, amended.  For distinct terminals with planar unit directions whose
cardinalised directions are orthogonal, `Wire.get_corner_points` returns exactly
one corner point and the path end → corner → end is axis-aligned; the corner
lies on both terminals' (cardinalised) exit rays whenever the intersection of
the two exit rays is not strictly behind either terminal's exit plane.  (The
unconditional on-both-rays statement of the original claim fails when the
intersection falls behind a plane and the corner is relocated to the other
rectangle vertex.) -/
theorem claim_C1_perpendicular_routing (t1 t2 : Terminal) (hid : t1.id ≠ t2.id)
    (hz1 : t1.direction.z = 0) (hz2 : t2.direction.z = 0)
    (hu1 : t1.direction.x ^ 2 + t1.direction.y ^ 2 = 1)
    (hu2 : t2.direction.x ^ 2 + t2.direction.y ^ 2 = 1)
    (he1 : t1.endPoint.z = 0) (he2 : t2.endPoint.z = 0)
    (horth : dot3 (wireDirection t1) (wireDirection t2) = 0) :
    ∃ c, getCornerPoints t1 t2 = [c] ∧
      axisAligned t1.endPoint c ∧ axisAligned c t2.endPoint ∧
      (¬ pointIsBehindPlane
          (findIntersection t1.endPoint (wireDirection t1) t2.endPoint
            (wireDirection t2)) t1.endPoint (wireDirection t1) →
       ¬ pointIsBehindPlane
          (findIntersection t1.endPoint (wireDirection t1) t2.endPoint
            (wireDirection t2)) t2.endPoint (wireDirection t2) →
       c = findIntersection t1.endPoint (wireDirection t1) t2.endPoint
            (wireDirection t2) ∧
       onRayFrom t1.endPoint (wireDirection t1) c ∧
       onRayFrom t2.endPoint (wireDirection t2) c) := by
  obtain ⟨s1, hs1, hc1⟩ := cardinalised_default_cases hz1 hu1
  obtain ⟨s2, hs2, hc2⟩ := cardinalised_default_cases hz2 hu2
  have hq1 : s1 ^ 2 = 1 := sq_one_of_pm hs1
  have hq2 : s2 ^ 2 = 1 := sq_one_of_pm hs2
  have hw1 : wireDirection t1 = cardinalised t1.direction defaultCardinalMargin := rfl
  have hw2 : wireDirection t2 = cardinalised t2.direction defaultCardinalMargin := rfl
  rcases hc1 with h1 | h1 <;> rcases hc2 with h2 | h2 <;>
      rw [← hw1] at h1 <;> rw [← hw2] at h2
  -- both horizontal: contradicts orthogonality
  · exfalso
    rw [h1, h2] at horth
    simp [dot3] at horth
    rcases hs1 with h | h <;> rcases hs2 with g | g <;> rw [h, g] at horth <;>
      norm_num at horth
  -- from horizontal, to vertical
  · have hfi : findIntersection t1.endPoint (wireDirection t1) t2.endPoint
        (wireDirection t2) = ⟨t2.endPoint.x, t1.endPoint.y, t1.endPoint.z⟩ := by
      rw [h1, h2]; exact findIntersection_hv _ _ hq1 hq2
    simp only [getCornerPoints]
    rw [if_pos (by rw [horth]; norm_num)]
    simp only [cornerPointsPerpendicular]
    rw [hfi]
    by_cases hbehind :
        pointIsBehindPlane ⟨t2.endPoint.x, t1.endPoint.y, t1.endPoint.z⟩
          t1.endPoint (wireDirection t1) ∨
        pointIsBehindPlane ⟨t2.endPoint.x, t1.endPoint.y, t1.endPoint.z⟩
          t2.endPoint (wireDirection t2)
    · rw [if_pos hbehind]
      by_cases hx : (⟨t2.endPoint.x, t1.endPoint.y, t1.endPoint.z⟩ : Vec3).x
          = t1.endPoint.x
      · rw [if_pos hx]
        refine ⟨_, rfl, ⟨by rw [he1], Or.inr rfl⟩, ⟨by rw [he2], Or.inl rfl⟩, ?_⟩
        intro hnb1 hnb2
        exact absurd hbehind (not_or.mpr ⟨hnb1, hnb2⟩)
      · rw [if_neg hx]
        refine ⟨_, rfl, ⟨by rw [he1], Or.inl rfl⟩, ⟨by rw [he2], Or.inr rfl⟩, ?_⟩
        intro hnb1 hnb2
        exact absurd hbehind (not_or.mpr ⟨hnb1, hnb2⟩)
    · rw [if_neg hbehind]
      push_neg at hbehind
      obtain ⟨hnb1, hnb2⟩ := hbehind
      refine ⟨_, rfl, ⟨rfl, Or.inr rfl⟩, ⟨by rw [he1, he2], Or.inl rfl⟩, ?_⟩
      intro _ _
      refine ⟨rfl, ?_, ?_⟩
      · unfold pointIsBehindPlane at hnb1
        push_neg at hnb1
        rw [h1] at hnb1 ⊢
        simp [dot3] at hnb1
        refine ⟨s1 * (t2.endPoint.x - t1.endPoint.x), hnb1, ?_⟩
        apply Vec3.ext
        · simp only [Vec3.add_x, Vec3.smul_x, Vec3.mk_x]
          linear_combination (t1.endPoint.x - t2.endPoint.x) * hq1
        · simp only [Vec3.add_y, Vec3.smul_y, Vec3.mk_y]
          ring
        · simp only [Vec3.add_z, Vec3.smul_z, Vec3.mk_z]
          ring
      · unfold pointIsBehindPlane at hnb2
        push_neg at hnb2
        rw [h2] at hnb2 ⊢
        simp [dot3] at hnb2
        refine ⟨s2 * (t1.endPoint.y - t2.endPoint.y), hnb2, ?_⟩
        apply Vec3.ext
        · simp only [Vec3.add_x, Vec3.smul_x, Vec3.mk_x]
          ring
        · simp only [Vec3.add_y, Vec3.smul_y, Vec3.mk_y]
          linear_combination (t2.endPoint.y - t1.endPoint.y) * hq2
        · simp only [Vec3.add_z, Vec3.smul_z, Vec3.mk_z]
          rw [he1, he2]; ring
  -- from vertical, to horizontal
  · have hfi : findIntersection t1.endPoint (wireDirection t1) t2.endPoint
        (wireDirection t2) = ⟨t1.endPoint.x, t2.endPoint.y, t1.endPoint.z⟩ := by
      rw [h1, h2]; exact findIntersection_vh _ _ hq1 hq2
    simp only [getCornerPoints]
    rw [if_pos (by rw [horth]; norm_num)]
    simp only [cornerPointsPerpendicular]
    rw [hfi]
    by_cases hbehind :
        pointIsBehindPlane ⟨t1.endPoint.x, t2.endPoint.y, t1.endPoint.z⟩
          t1.endPoint (wireDirection t1) ∨
        pointIsBehindPlane ⟨t1.endPoint.x, t2.endPoint.y, t1.endPoint.z⟩
          t2.endPoint (wireDirection t2)
    · rw [if_pos hbehind]
      rw [if_pos rfl]
      refine ⟨_, rfl, ⟨by rw [he1], Or.inr rfl⟩, ⟨by rw [he2], Or.inl rfl⟩, ?_⟩
      intro hnb1 hnb2
      exact absurd hbehind (not_or.mpr ⟨hnb1, hnb2⟩)
    · rw [if_neg hbehind]
      push_neg at hbehind
      obtain ⟨hnb1, hnb2⟩ := hbehind
      refine ⟨_, rfl, ⟨rfl, Or.inl rfl⟩, ⟨by rw [he1, he2], Or.inr rfl⟩, ?_⟩
      intro _ _
      refine ⟨rfl, ?_, ?_⟩
      · unfold pointIsBehindPlane at hnb1
        push_neg at hnb1
        rw [h1] at hnb1 ⊢
        simp [dot3] at hnb1
        refine ⟨s1 * (t2.endPoint.y - t1.endPoint.y), hnb1, ?_⟩
        apply Vec3.ext
        · simp only [Vec3.add_x, Vec3.smul_x, Vec3.mk_x]
          ring
        · simp only [Vec3.add_y, Vec3.smul_y, Vec3.mk_y]
          linear_combination (t1.endPoint.y - t2.endPoint.y) * hq1
        · simp only [Vec3.add_z, Vec3.smul_z, Vec3.mk_z]
          ring
      · unfold pointIsBehindPlane at hnb2
        push_neg at hnb2
        rw [h2] at hnb2 ⊢
        simp [dot3] at hnb2
        refine ⟨s2 * (t1.endPoint.x - t2.endPoint.x), hnb2, ?_⟩
        apply Vec3.ext
        · simp only [Vec3.add_x, Vec3.smul_x, Vec3.mk_x]
          linear_combination (t2.endPoint.x - t1.endPoint.x) * hq2
        · simp only [Vec3.add_y, Vec3.smul_y, Vec3.mk_y]
          ring
        · simp only [Vec3.add_z, Vec3.smul_z, Vec3.mk_z]
          rw [he1, he2]; ring
  -- both vertical: contradicts orthogonality
  · exfalso
    rw [h1, h2] at horth
    simp [dot3] at horth
    rcases hs1 with h | h <;> rcases hs2 with g | g <;> rw [h, g] at horth <;>
      norm_num at horth


-- Concrete evaluations of the default cardinal snap on the unit cardinal
-- directions themselves (used by witnesses and counterexamples).

theorem cardinalised_default_unitx :
    cardinalised ⟨1, 0, 0⟩ defaultCardinalMargin = ⟨1, 0, 0⟩ := by
  rw [cardinalised_default_planar_unit (by simp) (by norm_num)]
  rw [if_pos (by simp)]
  rw [show rsign 1 = 1 from Real.sign_one]

theorem cardinalised_default_unity :
    cardinalised ⟨0, 1, 0⟩ defaultCardinalMargin = ⟨0, 1, 0⟩ := by
  rw [cardinalised_default_planar_unit (by simp) (by norm_num)]
  rw [if_neg (by simp)]
  rw [show rsign 1 = 1 from Real.sign_one]

theorem cardinalised_default_negx :
    cardinalised ⟨-1, 0, 0⟩ defaultCardinalMargin = ⟨-1, 0, 0⟩ := by
  rw [cardinalised_default_planar_unit (by simp) (by norm_num)]
  rw [if_pos (by simp)]
  rw [show rsign (-1) = -1 from Real.sign_of_neg (by norm_num)]

/-- The routed corner for the terminal pair of end-to-end scenario 1 of the
spec: terminal at (1,0,0) facing right and terminal at (0,1,0) facing up.  The
ray intersection (0,0,0) is behind both exit planes, so the corner is relocated
to (1,1,0). -/
theorem getCornerPoints_scenario1 :
    getCornerPoints (Terminal.mk 0 ⟨1, 0, 0⟩ ⟨1, 0, 0⟩)
      (Terminal.mk 1 ⟨0, 1, 0⟩ ⟨0, 1, 0⟩) = [⟨1, 1, 0⟩] := by
  have hw1 : wireDirection (Terminal.mk 0 ⟨1, 0, 0⟩ ⟨1, 0, 0⟩) = ⟨1, 0, 0⟩ :=
    cardinalised_default_unitx
  have hw2 : wireDirection (Terminal.mk 1 ⟨0, 1, 0⟩ ⟨0, 1, 0⟩) = ⟨0, 1, 0⟩ :=
    cardinalised_default_unity
  have hfi : findIntersection ⟨1, 0, 0⟩ ⟨1, 0, 0⟩ ⟨0, 1, 0⟩ ⟨0, 1, 0⟩
      = (⟨0, 0, 0⟩ : Vec3) := by
    rw [findIntersection_hv _ _ (by norm_num : (1:ℝ) ^ 2 = 1)
      (by norm_num : (1:ℝ) ^ 2 = 1)]
  simp only [getCornerPoints]
  rw [hw1, hw2]
  rw [if_pos (by simp [dot3]; norm_num)]
  simp only [cornerPointsPerpendicular]
  rw [hfi]
  rw [if_pos (Or.inl (by simp [pointIsBehindPlane, dot3]))]
  rw [if_neg (by norm_num)]

/-- Witness for C1 at the concrete perpendicular pair of scenario 1. -/
theorem claim_C1_perpendicular_routing_witness :
    dot3 (wireDirection (Terminal.mk 0 ⟨1, 0, 0⟩ ⟨1, 0, 0⟩))
        (wireDirection (Terminal.mk 1 ⟨0, 1, 0⟩ ⟨0, 1, 0⟩)) = 0 ∧
    ∃ c, getCornerPoints (Terminal.mk 0 ⟨1, 0, 0⟩ ⟨1, 0, 0⟩)
          (Terminal.mk 1 ⟨0, 1, 0⟩ ⟨0, 1, 0⟩) = [c] ∧
        axisAligned (Terminal.mk 0 ⟨1, 0, 0⟩ ⟨1, 0, 0⟩).endPoint c ∧
        axisAligned c (Terminal.mk 1 ⟨0, 1, 0⟩ ⟨0, 1, 0⟩).endPoint := by
  have hdot : dot3 (wireDirection (Terminal.mk 0 ⟨1, 0, 0⟩ ⟨1, 0, 0⟩))
      (wireDirection (Terminal.mk 1 ⟨0, 1, 0⟩ ⟨0, 1, 0⟩)) = 0 := by
    rw [show wireDirection (Terminal.mk 0 ⟨1, 0, 0⟩ ⟨1, 0, 0⟩) = ⟨1, 0, 0⟩ from
      cardinalised_default_unitx,
      show wireDirection (Terminal.mk 1 ⟨0, 1, 0⟩ ⟨0, 1, 0⟩) = ⟨0, 1, 0⟩ from
      cardinalised_default_unity]
    simp [dot3]
  refine ⟨hdot, ?_⟩
  obtain ⟨c, hc, ha1, ha2, _⟩ :=
    claim_C1_perpendicular_routing (Terminal.mk 0 ⟨1, 0, 0⟩ ⟨1, 0, 0⟩)
      (Terminal.mk 1 ⟨0, 1, 0⟩ ⟨0, 1, 0⟩) (by norm_num) rfl rfl (by norm_num)
      (by norm_num) rfl rfl hdot
  exact ⟨c, hc, ha1, ha2⟩

/-- Counterexample to C1 as stated: for the perpendicular pair of scenario 1 the
single returned corner (1,1,0) does not lie on the from-terminal's exit ray
(the ray from (1,0,0) along (1,0,0)). -/
theorem claim_C1_counterexample :
    getCornerPoints (Terminal.mk 0 ⟨1, 0, 0⟩ ⟨1, 0, 0⟩)
      (Terminal.mk 1 ⟨0, 1, 0⟩ ⟨0, 1, 0⟩) = [⟨1, 1, 0⟩] ∧
    ¬ onRayFrom (Terminal.mk 0 ⟨1, 0, 0⟩ ⟨1, 0, 0⟩).endPoint
        (Terminal.mk 0 ⟨1, 0, 0⟩ ⟨1, 0, 0⟩).direction ⟨1, 1, 0⟩ := by
  refine ⟨getCornerPoints_scenario1, ?_⟩
  rintro ⟨s, hs, heq⟩
  have hy : (1 : ℝ) = 0 + s * 0 := congrArg Vec3.y heq
  norm_num at hy


-- Helper computations for the parallel-terminal branch of the router.

theorem cross3_horizontal_out (a : ℝ) :
    cross3 ⟨a, 0, 0⟩ mnOUT = ⟨0, -a, 0⟩ := by
  simp [cross3, mnOUT]

theorem cross3_vertical_out (a : ℝ) :
    cross3 ⟨0, a, 0⟩ mnOUT = ⟨a, 0, 0⟩ := by
  simp [cross3, mnOUT]

theorem rotateVector_horizontal (a : ℝ) :
    rotateVector ⟨a, 0, 0⟩ (Real.pi / 2) = ⟨0, a, 0⟩ := by
  simp [rotateVector, Real.cos_pi_div_two, Real.sin_pi_div_two]

theorem rotateVector_vertical (a : ℝ) :
    rotateVector ⟨0, a, 0⟩ (Real.pi / 2) = ⟨-a, 0, 0⟩ := by
  simp [rotateVector, Real.cos_pi_div_two, Real.sin_pi_div_two]

theorem midpoint3_z_zero {a b : Vec3} (ha : a.z = 0) (hb : b.z = 0) :
    (midpoint3 a b).z = 0 := by
  simp [midpoint3, ha, hb]

theorem movePointForwardOfPlane_z_zero {p q n : Vec3} (hp : p.z = 0)
    (hn : n.z = 0) : (movePointForwardOfPlane p q n).z = 0 := by
  simp only [movePointForwardOfPlane]
  split_ifs
  · exact hp
  · simp [normalised, hp, hn]

/-- C2.  For distinct terminals with planar unit directions whose cardinalised
directions are parallel or antiparallel (dot product ±1), the router returns
exactly two corner points and the polyline end → corner₁ → corner₂ → end
consists only of axis-aligned segments. -/
theorem claim_C2_parallel_routing (t1 t2 : Terminal) (hid : t1.id ≠ t2.id)
    (hz1 : t1.direction.z = 0) (hz2 : t2.direction.z = 0)
    (hu1 : t1.direction.x ^ 2 + t1.direction.y ^ 2 = 1)
    (hu2 : t2.direction.x ^ 2 + t2.direction.y ^ 2 = 1)
    (he1 : t1.endPoint.z = 0) (he2 : t2.endPoint.z = 0)
    (hpar : dot3 (wireDirection t1) (wireDirection t2) = 1 ∨
            dot3 (wireDirection t1) (wireDirection t2) = -1) :
    ∃ c1 c2, getCornerPoints t1 t2 = [c1, c2] ∧
      axisAligned t1.endPoint c1 ∧ axisAligned c1 c2 ∧
      axisAligned c2 t2.endPoint := by
  obtain ⟨s1, hs1, hc1⟩ := cardinalised_default_cases hz1 hu1
  obtain ⟨s2, hs2, hc2⟩ := cardinalised_default_cases hz2 hu2
  have hq1 : s1 ^ 2 = 1 := sq_one_of_pm hs1
  have hq2 : s2 ^ 2 = 1 := sq_one_of_pm hs2
  have hw1 : wireDirection t1 = cardinalised t1.direction defaultCardinalMargin := rfl
  have hw2 : wireDirection t2 = cardinalised t2.direction defaultCardinalMargin := rfl
  have hbranch : ¬ |dot3 (wireDirection t1) (wireDirection t2)| ≤ 1e-8 := by
    rcases hpar with hp | hp <;> rw [hp] <;> norm_num
  rcases hc1 with h1 | h1 <;> rcases hc2 with h2 | h2 <;>
      rw [← hw1] at h1 <;> rw [← hw2] at h2
  -- both horizontal
  · simp only [getCornerPoints]
    rw [if_neg hbranch]
    rw [h1, h2]
    simp only [cornerPointsParallel]
    by_cases hb :
        pointIsBehindPlane t2.endPoint t1.endPoint (⟨s1, 0, 0⟩ : Vec3) ∧
        pointIsBehindPlane t1.endPoint t2.endPoint (⟨s2, 0, 0⟩ : Vec3)
    · rw [if_pos hb, if_pos hb, if_pos hb]
      rw [rotateVector_horizontal, rotateVector_horizontal, cross3_vertical_out]
      rw [findIntersection_hv _ _ hq1 hq1, findIntersection_hv _ _ hq1 hq2]
      have hmz : (midpoint3 t1.endPoint t2.endPoint).z = 0 :=
        midpoint3_z_zero he1 he2
      exact ⟨_, _, rfl, ⟨by rw [he1, hmz], Or.inl rfl⟩, ⟨rfl, Or.inr rfl⟩,
        ⟨by rw [he2, hmz], Or.inl rfl⟩⟩
    · rw [if_neg hb, if_neg hb, if_neg hb]
      rw [cross3_horizontal_out]
      rw [findIntersection_vh _ _ (by nlinarith : (-s1) ^ 2 = 1) hq1,
        findIntersection_vh _ _ (by nlinarith : (-s1) ^ 2 = 1) hq2]
      have hmz : (if pointIsBehindPlane t2.endPoint t1.endPoint (⟨s1, 0, 0⟩ : Vec3)
          then movePointForwardOfPlane (midpoint3 t1.endPoint t2.endPoint)
            t1.endPoint ⟨s1, 0, 0⟩
          else if pointIsBehindPlane t1.endPoint t2.endPoint (⟨s2, 0, 0⟩ : Vec3)
          then movePointForwardOfPlane (midpoint3 t1.endPoint t2.endPoint)
            t2.endPoint ⟨s2, 0, 0⟩
          else midpoint3 t1.endPoint t2.endPoint).z = 0 := by
        split_ifs
        · exact movePointForwardOfPlane_z_zero (midpoint3_z_zero he1 he2) rfl
        · exact movePointForwardOfPlane_z_zero (midpoint3_z_zero he1 he2) rfl
        · exact midpoint3_z_zero he1 he2
      exact ⟨_, _, rfl, ⟨by rw [he1, hmz], Or.inr rfl⟩, ⟨by rw [hmz], Or.inl rfl⟩,
        ⟨by rw [he2, hmz], Or.inr rfl⟩⟩
  -- horizontal against vertical: contradicts parallelism
  · exfalso
    rw [h1, h2] at hpar
    rcases hpar with hp | hp <;> simp [dot3] at hp
  -- vertical against horizontal: contradicts parallelism
  · exfalso
    rw [h1, h2] at hpar
    rcases hpar with hp | hp <;> simp [dot3] at hp
  -- both vertical
  · simp only [getCornerPoints]
    rw [if_neg hbranch]
    rw [h1, h2]
    simp only [cornerPointsParallel]
    by_cases hb :
        pointIsBehindPlane t2.endPoint t1.endPoint (⟨0, s1, 0⟩ : Vec3) ∧
        pointIsBehindPlane t1.endPoint t2.endPoint (⟨0, s2, 0⟩ : Vec3)
    · rw [if_pos hb, if_pos hb, if_pos hb]
      rw [rotateVector_vertical, rotateVector_vertical, cross3_horizontal_out]
      rw [findIntersection_vh _ _ (by nlinarith : (- -s1) ^ 2 = 1)
        (by nlinarith : (-s1) ^ 2 = 1),
        findIntersection_vh _ _ (by nlinarith : (- -s1) ^ 2 = 1)
        (by nlinarith : (-s2) ^ 2 = 1)]
      have hmz : (midpoint3 t1.endPoint t2.endPoint).z = 0 :=
        midpoint3_z_zero he1 he2
      exact ⟨_, _, rfl, ⟨by rw [he1, hmz], Or.inr rfl⟩, ⟨by rw [hmz], Or.inl rfl⟩,
        ⟨by rw [he2, hmz], Or.inr rfl⟩⟩
    · rw [if_neg hb, if_neg hb, if_neg hb]
      rw [cross3_vertical_out]
      rw [findIntersection_hv _ _ hq1 hq1, findIntersection_hv _ _ hq1 hq2]
      have hmz : (if pointIsBehindPlane t2.endPoint t1.endPoint (⟨0, s1, 0⟩ : Vec3)
          then movePointForwardOfPlane (midpoint3 t1.endPoint t2.endPoint)
            t1.endPoint ⟨0, s1, 0⟩
          else if pointIsBehindPlane t1.endPoint t2.endPoint (⟨0, s2, 0⟩ : Vec3)
          then movePointForwardOfPlane (midpoint3 t1.endPoint t2.endPoint)
            t2.endPoint ⟨0, s2, 0⟩
          else midpoint3 t1.endPoint t2.endPoint).z = 0 := by
        split_ifs
        · exact movePointForwardOfPlane_z_zero (midpoint3_z_zero he1 he2) rfl
        · exact movePointForwardOfPlane_z_zero (midpoint3_z_zero he1 he2) rfl
        · exact midpoint3_z_zero he1 he2
      exact ⟨_, _, rfl, ⟨by rw [he1, hmz], Or.inl rfl⟩, ⟨rfl, Or.inr rfl⟩,
        ⟨by rw [he2, hmz], Or.inl rfl⟩⟩


/-- Witness for C2 at the concrete antiparallel pair of end-to-end scenario 2 of
the spec: terminals at (-1,0,0) facing left and (1,0,0) facing right. -/
theorem claim_C2_parallel_routing_witness :
    dot3 (wireDirection (Terminal.mk 0 ⟨-1, 0, 0⟩ ⟨-1, 0, 0⟩))
        (wireDirection (Terminal.mk 1 ⟨1, 0, 0⟩ ⟨1, 0, 0⟩)) = -1 ∧
    ∃ c1 c2, getCornerPoints (Terminal.mk 0 ⟨-1, 0, 0⟩ ⟨-1, 0, 0⟩)
        (Terminal.mk 1 ⟨1, 0, 0⟩ ⟨1, 0, 0⟩) = [c1, c2] ∧
      axisAligned (Terminal.mk 0 ⟨-1, 0, 0⟩ ⟨-1, 0, 0⟩).endPoint c1 ∧
      axisAligned c1 c2 ∧
      axisAligned c2 (Terminal.mk 1 ⟨1, 0, 0⟩ ⟨1, 0, 0⟩).endPoint := by
  have hd : dot3 (wireDirection (Terminal.mk 0 ⟨-1, 0, 0⟩ ⟨-1, 0, 0⟩))
      (wireDirection (Terminal.mk 1 ⟨1, 0, 0⟩ ⟨1, 0, 0⟩)) = -1 := by
    rw [show wireDirection (Terminal.mk 0 ⟨-1, 0, 0⟩ ⟨-1, 0, 0⟩) = ⟨-1, 0, 0⟩ from
      cardinalised_default_negx,
      show wireDirection (Terminal.mk 1 ⟨1, 0, 0⟩ ⟨1, 0, 0⟩) = ⟨1, 0, 0⟩ from
      cardinalised_default_unitx]
    simp [dot3]
  exact ⟨hd, claim_C2_parallel_routing _ _ (by norm_num) rfl rfl (by norm_num)
    (by norm_num) rfl rfl (Or.inr hd)⟩

/-- C3, amended.  `Wire.get_corner_points` supplies no explicit tolerance to the
snapping function, so the default margin applies; that default is `π/4` (45°,
pinned by the repository's own test of the no-margin call), not the claimed
≈5°.  Consequently every planar unit terminal direction — in particular one
within 5° of a cardinal axis — is snapped to the nearest cardinal axis before
the terminal pair is classified. -/
theorem claim_C3_default_snap (t : Terminal) (hz : t.direction.z = 0)
    (hu : t.direction.x ^ 2 + t.direction.y ^ 2 = 1) :
    wireDirection t =
      if |t.direction.y| ≤ |t.direction.x| then ⟨rsign t.direction.x, 0, 0⟩
      else ⟨0, rsign t.direction.y, 0⟩ :=
  cardinalised_default_planar_unit hz hu

/-- Witness for C3: a terminal whose direction is 45° off-axis is snapped to the
horizontal by the no-margin call. -/
theorem claim_C3_default_snap_witness :
    (Terminal.mk 0 ⟨0, 0, 0⟩
        ⟨Real.sqrt 2 / 2, Real.sqrt 2 / 2, 0⟩).direction.z = 0 ∧
    (Terminal.mk 0 ⟨0, 0, 0⟩
        ⟨Real.sqrt 2 / 2, Real.sqrt 2 / 2, 0⟩).direction.x ^ 2 +
      (Terminal.mk 0 ⟨0, 0, 0⟩
        ⟨Real.sqrt 2 / 2, Real.sqrt 2 / 2, 0⟩).direction.y ^ 2 = 1 ∧
    wireDirection (Terminal.mk 0 ⟨0, 0, 0⟩
        ⟨Real.sqrt 2 / 2, Real.sqrt 2 / 2, 0⟩) =
      if |(Terminal.mk 0 ⟨0, 0, 0⟩
          ⟨Real.sqrt 2 / 2, Real.sqrt 2 / 2, 0⟩).direction.y| ≤
        |(Terminal.mk 0 ⟨0, 0, 0⟩
          ⟨Real.sqrt 2 / 2, Real.sqrt 2 / 2, 0⟩).direction.x| then
        ⟨rsign (Terminal.mk 0 ⟨0, 0, 0⟩
          ⟨Real.sqrt 2 / 2, Real.sqrt 2 / 2, 0⟩).direction.x, 0, 0⟩
      else ⟨0, rsign (Terminal.mk 0 ⟨0, 0, 0⟩
          ⟨Real.sqrt 2 / 2, Real.sqrt 2 / 2, 0⟩).direction.y, 0⟩ := by
  have hu : (Real.sqrt 2 / 2) ^ 2 + (Real.sqrt 2 / 2) ^ 2 = 1 := by
    rw [div_pow, Real.sq_sqrt (by norm_num : (2:ℝ) ≥ 0)]
    norm_num
  exact ⟨rfl, hu, claim_C3_default_snap _ rfl hu⟩

/-- Counterexample to C3 as stated: the no-margin call snaps the unit vector at
45° from the horizontal — which is more than 5° away from every cardinal axis —
to (1,0,0); with the claimed ≈5° tolerance (`5 * π/180`) the same vector is
left unsnapped.  Hence the default tolerance of the no-margin call cannot be
≈5°. -/
theorem claim_C3_counterexample :
    cardinalised ⟨Real.sqrt 2 / 2, Real.sqrt 2 / 2, 0⟩ defaultCardinalMargin
      = ⟨1, 0, 0⟩ ∧
    cardinalised ⟨Real.sqrt 2 / 2, Real.sqrt 2 / 2, 0⟩ (5 * (Real.pi / 180))
      = ⟨Real.sqrt 2 / 2, Real.sqrt 2 / 2, 0⟩ ∧
    (⟨Real.sqrt 2 / 2, Real.sqrt 2 / 2, 0⟩ : Vec3) ≠ ⟨1, 0, 0⟩ := by
  have hs2 : (0:ℝ) < Real.sqrt 2 := Real.sqrt_pos.mpr (by norm_num)
  have hu : (Real.sqrt 2 / 2) ^ 2 + (Real.sqrt 2 / 2) ^ 2 = 1 := by
    rw [div_pow, Real.sq_sqrt (by norm_num : (2:ℝ) ≥ 0)]
    norm_num
  have hpi : (0:ℝ) < Real.pi := Real.pi_pos
  refine ⟨?_, ?_, ?_⟩
  · rw [cardinalised_default_planar_unit rfl hu]
    rw [if_pos le_rfl]
    rw [show rsign (Real.sqrt 2 / 2) = 1 from Real.sign_of_pos (by positivity)]
  · unfold cardinalised
    rw [if_neg]
    have hang : angleOfVector ⟨Real.sqrt 2 / 2, Real.sqrt 2 / 2, 0⟩
        = Real.pi / 4 := atan2_diag (by positivity)
    rw [hang]
    rw [rmod_eq_self (by positivity) (by linarith)]
    intro hle
    nlinarith
  · intro h
    have hy : Real.sqrt 2 / 2 = 0 := congrArg Vec3.y h
    nlinarith


-- Fixed points of the snap: already-cardinal vectors are snapped to themselves.

theorem norm3_nonneg (v : Vec3) : 0 ≤ norm3 v := Real.sqrt_nonneg _

theorem norm3_axis_x (w : ℝ) : norm3 ⟨w, 0, 0⟩ = |w| := by
  unfold norm3
  simp [Real.sqrt_sq_eq_abs]

theorem norm3_axis_y (w : ℝ) : norm3 ⟨0, w, 0⟩ = |w| := by
  unfold norm3
  simp [Real.sqrt_sq_eq_abs]

theorem norm3_axis_z (w : ℝ) : norm3 ⟨0, 0, w⟩ = |w| := by
  unfold norm3
  simp [Real.sqrt_sq_eq_abs]

theorem absArgmaxSet_fixed_x (w : ℝ) :
    absArgmaxSet ⟨w, 0, 0⟩ (norm3 ⟨w, 0, 0⟩) = ⟨w, 0, 0⟩ := by
  rw [norm3_axis_x]
  unfold absArgmaxSet
  rw [if_pos (by simp)]
  rw [rsign_mul_abs]

theorem absArgmaxSet_fixed_y (w : ℝ) :
    absArgmaxSet ⟨0, w, 0⟩ (norm3 ⟨0, w, 0⟩) = ⟨0, w, 0⟩ := by
  rw [norm3_axis_y]
  unfold absArgmaxSet
  by_cases hw : w = 0
  · subst hw
    rw [if_pos (by simp)]
    simp [rsign, Real.sign_zero]
  · rw [if_neg (by simp [abs_pos.mpr hw, not_le.mpr])]
    rw [if_pos (by simp)]
    rw [rsign_mul_abs]

theorem absArgmaxSet_fixed_z (w : ℝ) :
    absArgmaxSet ⟨0, 0, w⟩ (norm3 ⟨0, 0, w⟩) = ⟨0, 0, w⟩ := by
  rw [norm3_axis_z]
  unfold absArgmaxSet
  by_cases hw : w = 0
  · subst hw
    rw [if_pos (by simp)]
    simp [rsign, Real.sign_zero]
  · rw [if_neg (by simp [abs_pos.mpr hw, not_le.mpr])]
    rw [if_neg (by simp [abs_pos.mpr hw, not_le.mpr])]
    rw [rsign_mul_abs]

theorem rmod_multiple_add {m : ℝ} (hm0 : 0 < m) (hm : m < Real.pi / 2) (k : ℤ) :
    rmod ((k : ℝ) * (Real.pi / 2) + m) (Real.pi / 2) = m := by
  rw [show (k : ℝ) * (Real.pi / 2) + m = m + (k : ℝ) * (Real.pi / 2) by ring]
  rw [rmod_add_int_mul _ (by positivity : (0:ℝ) < Real.pi / 2).ne' k]
  exact rmod_eq_self (le_of_lt hm0) hm

theorem angleOfVector_axis_x (w : ℝ) :
    ∃ k : ℤ, angleOfVector ⟨w, 0, 0⟩ = (k : ℝ) * (Real.pi / 2) := by
  rcases lt_trichotomy w 0 with h | h | h
  · exact ⟨2, by
      rw [show angleOfVector ⟨w, 0, 0⟩ = atan2 0 w from rfl, atan2_zero_neg h]
      push_cast; ring⟩
  · exact ⟨0, by
      rw [h, show angleOfVector ⟨0, 0, 0⟩ = atan2 0 0 from rfl, atan2_zero_zero]
      push_cast; ring⟩
  · exact ⟨0, by
      rw [show angleOfVector ⟨w, 0, 0⟩ = atan2 0 w from rfl, atan2_zero_pos h]
      push_cast; ring⟩

theorem angleOfVector_axis_y (w : ℝ) :
    ∃ k : ℤ, angleOfVector ⟨0, w, 0⟩ = (k : ℝ) * (Real.pi / 2) := by
  rcases lt_trichotomy w 0 with h | h | h
  · exact ⟨-1, by
      rw [show angleOfVector ⟨0, w, 0⟩ = atan2 w 0 from rfl, atan2_neg_zero h]
      push_cast; ring⟩
  · exact ⟨0, by
      rw [h, show angleOfVector ⟨0, 0, 0⟩ = atan2 0 0 from rfl, atan2_zero_zero]
      push_cast; ring⟩
  · exact ⟨1, by
      rw [show angleOfVector ⟨0, w, 0⟩ = atan2 w 0 from rfl, atan2_pos_zero h]
      push_cast; ring⟩

theorem angleOfVector_axis_z (w : ℝ) :
    ∃ k : ℤ, angleOfVector ⟨0, 0, w⟩ = (k : ℝ) * (Real.pi / 2) :=
  ⟨0, by
    rw [show angleOfVector ⟨0, 0, w⟩ = atan2 0 0 from rfl, atan2_zero_zero]
    push_cast; ring⟩

theorem cardinalised_fixed_x (w : ℝ) {m : ℝ} (hm0 : 0 < m)
    (hm : m < Real.pi / 4) : cardinalised ⟨w, 0, 0⟩ m = ⟨w, 0, 0⟩ := by
  have hpi := Real.pi_pos
  obtain ⟨k, hk⟩ := angleOfVector_axis_x w
  unfold cardinalised
  rw [hk, if_pos (by rw [rmod_multiple_add hm0 (by linarith) k]; linarith)]
  exact absArgmaxSet_fixed_x w

theorem cardinalised_fixed_y (w : ℝ) {m : ℝ} (hm0 : 0 < m)
    (hm : m < Real.pi / 4) : cardinalised ⟨0, w, 0⟩ m = ⟨0, w, 0⟩ := by
  have hpi := Real.pi_pos
  obtain ⟨k, hk⟩ := angleOfVector_axis_y w
  unfold cardinalised
  rw [hk, if_pos (by rw [rmod_multiple_add hm0 (by linarith) k]; linarith)]
  exact absArgmaxSet_fixed_y w

theorem cardinalised_fixed_z (w : ℝ) {m : ℝ} (hm0 : 0 < m)
    (hm : m < Real.pi / 4) : cardinalised ⟨0, 0, w⟩ m = ⟨0, 0, w⟩ := by
  have hpi := Real.pi_pos
  obtain ⟨k, hk⟩ := angleOfVector_axis_z w
  unfold cardinalised
  rw [hk, if_pos (by rw [rmod_multiple_add hm0 (by linarith) k]; linarith)]
  exact absArgmaxSet_fixed_z w

/-- C8.  Cardinal snapping is idempotent for every vector and every margin in
(0, π/4), and the snapped vector keeps the magnitude of the original vector. -/
theorem claim_C8_cardinalised_idempotent (v : Vec3) (m : ℝ) (hm0 : 0 < m)
    (hm : m < Real.pi / 4) :
    cardinalised (cardinalised v m) m = cardinalised v m ∧
    norm3 (cardinalised v m) = norm3 v := by
  by_cases hc : rmod (angleOfVector v + m) (Real.pi / 2) ≤ 2 * m
  · have h0 : cardinalised v m = absArgmaxSet v (norm3 v) := by
      unfold cardinalised; rw [if_pos hc]
    rw [h0]
    constructor
    · unfold absArgmaxSet
      split_ifs
      · exact cardinalised_fixed_x _ hm0 hm
      · exact cardinalised_fixed_y _ hm0 hm
      · exact cardinalised_fixed_z _ hm0 hm
    · unfold absArgmaxSet
      split_ifs with hb1 hb2
      · rw [norm3_axis_x]
        by_cases hx : v.x = 0
        · have hy : v.y = 0 := by
            have := hb1.1; rw [hx] at this; simpa using this
          have hz : v.z = 0 := by
            have := hb1.2; rw [hx] at this; simpa using this
          have hnv : norm3 v = 0 := by
            unfold norm3; rw [hx, hy, hz]; simp
          rw [hnv, hx]
          simp
        · rcases rsign_pm_one hx with h | h <;> rw [h]
          · rw [mul_one, abs_of_nonneg (norm3_nonneg v)]
          · rw [mul_neg_one, abs_neg, abs_of_nonneg (norm3_nonneg v)]
      · rw [norm3_axis_y]
        have hy : v.y ≠ 0 := by
          intro h0
          apply hb1
          have hz : |v.z| = 0 := by
            have := hb2; rw [h0] at this; simpa using this
          constructor
          · rw [h0]; simp [abs_nonneg]
          · rw [hz]; simp [abs_nonneg]
        rcases rsign_pm_one hy with h | h <;> rw [h]
        · rw [mul_one, abs_of_nonneg (norm3_nonneg v)]
        · rw [mul_neg_one, abs_neg, abs_of_nonneg (norm3_nonneg v)]
      · rw [norm3_axis_z]
        have hz : v.z ≠ 0 := by
          intro h0
          apply hb2
          rw [h0]; simp [abs_nonneg]
        rcases rsign_pm_one hz with h | h <;> rw [h]
        · rw [mul_one, abs_of_nonneg (norm3_nonneg v)]
        · rw [mul_neg_one, abs_neg, abs_of_nonneg (norm3_nonneg v)]
  · have h0 : cardinalised v m = v := by
      unfold cardinalised; rw [if_neg hc]
    rw [h0]
    exact ⟨h0, rfl⟩

/-- Witness for C8 at the vector (3,1,0) and the margin π/8. -/
theorem claim_C8_cardinalised_idempotent_witness :
    (0 < Real.pi / 8 ∧ Real.pi / 8 < Real.pi / 4) ∧
    (cardinalised (cardinalised ⟨3, 1, 0⟩ (Real.pi / 8)) (Real.pi / 8) =
        cardinalised ⟨3, 1, 0⟩ (Real.pi / 8) ∧
      norm3 (cardinalised ⟨3, 1, 0⟩ (Real.pi / 8)) = norm3 ⟨3, 1, 0⟩) := by
  have hpi := Real.pi_pos
  exact ⟨⟨by positivity, by linarith⟩,
    claim_C8_cardinalised_idempotent ⟨3, 1, 0⟩ (Real.pi / 8) (by positivity)
      (by linarith)⟩


/-- C4.  Constructing a wire from a terminal to itself fails immediately with
the identical-terminals `ValueError`; for any two distinct terminals the
constructor raises no such error (the corner points are computed and returned).
No retry or silent correction exists: `wireMake` is the entire construction
path. -/
theorem claim_C4_identical_terminal_rejection (t t1 t2 : Terminal)
    (hne : t1.id ≠ t2.id) :
    wireMake t t = Except.error identicalTerminalsMessage ∧
    ∃ pts, wireMake t1 t2 = Except.ok pts := by
  constructor
  · unfold wireMake
    rw [if_pos rfl]
  · unfold wireMake
    rw [if_neg hne]
    exact ⟨_, rfl⟩

/-- Witness for C4 at concrete terminals. -/
theorem claim_C4_identical_terminal_rejection_witness :
    (0 : ℕ) ≠ 1 ∧
    (wireMake (Terminal.mk 0 ⟨0, 0, 0⟩ ⟨-1, 0, 0⟩) (Terminal.mk 0 ⟨0, 0, 0⟩ ⟨-1, 0, 0⟩)
        = Except.error identicalTerminalsMessage ∧
      ∃ pts, wireMake (Terminal.mk 0 ⟨1, 0, 0⟩ ⟨1, 0, 0⟩)
          (Terminal.mk 1 ⟨0, 1, 0⟩ ⟨0, 1, 0⟩) = Except.ok pts) :=
  ⟨by norm_num,
    claim_C4_identical_terminal_rejection (Terminal.mk 0 ⟨0, 0, 0⟩ ⟨-1, 0, 0⟩)
      (Terminal.mk 0 ⟨1, 0, 0⟩ ⟨1, 0, 0⟩) (Terminal.mk 1 ⟨0, 1, 0⟩ ⟨0, 1, 0⟩)
      (by norm_num)⟩

-- The voltage-arc solver (`Voltage._get_arc_details_for_middle_point`).

/-- The determinant of the 2×2 matrix
`[[perp_ab[0], -perp_bc[0]], [perp_ab[1], -perp_bc[1]]]` that
`Voltage._get_arc_details_for_middle_point` inverts (`np.linalg.inv` raises
exactly when this determinant is zero). -/
def arcMatrixDet (fromEnd toEnd middle : Vec3) : ℝ :=
  let chordAB := middle - fromEnd
  let chordBC := toEnd - middle
  let perpAB := cross3 chordAB mnOUT
  let perpBC := cross3 chordBC mnOUT
  perpAB.x * (-perpBC.y) - (-perpBC.x) * perpAB.y

/-- The circle centre computed by `Voltage._get_arc_details_for_middle_point`
(lines 285–301): intersect the perpendicular bisectors of the chords
from-end → middle and middle → to-end by solving the 2×2 linear system; `none`
models the `np.linalg.LinAlgError` raised on a singular matrix.  `x0` is the
first component of `inv(matrix) @ y`. -/
def arcCentre (fromEnd toEnd middle : Vec3) : Option Vec3 :=
  let chordAB := middle - fromEnd
  let chordBC := toEnd - middle
  let midAB := fromEnd + ((1 : ℝ) / 2) • chordAB
  let midBC := middle + ((1 : ℝ) / 2) • chordBC
  let perpAB := cross3 chordAB mnOUT
  let perpBC := cross3 chordBC mnOUT
  if arcMatrixDet fromEnd toEnd middle = 0 then none
  else
    let y1 := (midBC - midAB).x
    let y2 := (midBC - midAB).y
    let x0 := ((-perpBC.y) * y1 - (-perpBC.x) * y2) / arcMatrixDet fromEnd toEnd middle
    some (midAB + x0 • perpAB)

/-- `Voltage._get_arc_details_for_middle_point` (lines 303–305): the swept angle
`2 * arcsin(length / (2 * radius))`, where `radius` is the distance from the
computed centre to the middle point and `length` is the chord between the two
terminal ends. -/
def getArcAngle (fromEnd toEnd middle : Vec3) : Option ℝ :=
  (arcCentre fromEnd toEnd middle).map fun centre =>
    2 * Real.arcsin (norm3 (toEnd - fromEnd) / (2 * norm3 (centre - middle)))

/-- Three points of the z = 0 plane are collinear exactly when the planar cross
product of the two chords from the first point vanishes. -/
def collinearPts (A B C : Vec3) : Prop :=
  (B - A).x * (C - A).y - (B - A).y * (C - A).x = 0

theorem arcMatrixDet_eq (A C B : Vec3) :
    arcMatrixDet A C B =
      (B.y - A.y) * (C.x - B.x) - (B.x - A.x) * (C.y - B.y) := by
  simp only [arcMatrixDet, cross3, mnOUT, Vec3.sub_x, Vec3.sub_y, Vec3.sub_z,
    Vec3.mk_x, Vec3.mk_y, Vec3.mk_z]
  ring

/-- C7.  The 2×2 bisector matrix is singular exactly when the three points
(from-end, middle, to-end) are collinear; equivalently, for every non-collinear
triple the inversion succeeds and a centre is produced.  (Here collinearity of
planar points is the vanishing planar cross product; the third conjunct relates
it to the parametric form.) -/
theorem claim_C7_singular_iff_collinear (A C B : Vec3) :
    (arcMatrixDet A C B = 0 ↔ collinearPts A B C) ∧
    (¬ collinearPts A B C → (arcCentre A C B).isSome) := by
  have key : arcMatrixDet A C B =
      -((B - A).x * (C - A).y - (B - A).y * (C - A).x) := by
    rw [arcMatrixDet_eq]
    simp only [Vec3.sub_x, Vec3.sub_y]
    ring
  constructor
  · rw [key]
    unfold collinearPts
    constructor
    · intro h; linarith
    · intro h; rw [h]; ring
  · intro hncol
    have hdet : arcMatrixDet A C B ≠ 0 := by
      rw [key]
      intro h
      apply hncol
      unfold collinearPts
      linarith
    simp only [arcCentre]
    rw [if_neg hdet]
    rfl

/-- Witness for C7 at the non-collinear triple (-1,0,0), (0,1,0), (1,0,0). -/
theorem claim_C7_singular_iff_collinear_witness :
    ¬ collinearPts ⟨-1, 0, 0⟩ ⟨0, 1, 0⟩ ⟨1, 0, 0⟩ ∧
    (arcMatrixDet ⟨-1, 0, 0⟩ ⟨1, 0, 0⟩ ⟨0, 1, 0⟩ = 0 ↔
      collinearPts ⟨-1, 0, 0⟩ ⟨0, 1, 0⟩ ⟨1, 0, 0⟩) ∧
    (arcCentre ⟨-1, 0, 0⟩ ⟨1, 0, 0⟩ ⟨0, 1, 0⟩).isSome := by
  have hncol : ¬ collinearPts ⟨-1, 0, 0⟩ ⟨0, 1, 0⟩ ⟨1, 0, 0⟩ := by
    unfold collinearPts
    simp
  obtain ⟨hiff, hsome⟩ := claim_C7_singular_iff_collinear ⟨-1, 0, 0⟩ ⟨1, 0, 0⟩ ⟨0, 1, 0⟩
  exact ⟨hncol, hiff, hsome hncol⟩


theorem arcMatrixDet_ne_zero {A C B : Vec3} (hncol : ¬ collinearPts A B C) :
    arcMatrixDet A C B ≠ 0 := by
  rw [arcMatrixDet_eq]
  intro h
  apply hncol
  unfold collinearPts
  simp only [Vec3.sub_x, Vec3.sub_y] at h ⊢
  linarith

theorem norm3_sub_eq_zero {u w : Vec3} (h : norm3 (u - w) = 0) : u = w := by
  unfold norm3 at h
  rw [Real.sqrt_eq_zero'] at h
  simp only [Vec3.sub_x, Vec3.sub_y, Vec3.sub_z] at h
  have hx := sq_nonneg (u.x - w.x)
  have hy := sq_nonneg (u.y - w.y)
  have hz := sq_nonneg (u.z - w.z)
  apply Vec3.ext <;> nlinarith

/-- The centre produced by the bisector solve is equidistant from the from-end,
the middle point and the to-end (for same-height, non-collinear input). -/
theorem arcCentre_equidistant (A C B : Vec3) (hzA : A.z = B.z) (hzC : C.z = B.z)
    (hncol : ¬ collinearPts A B C) :
    ∃ O, arcCentre A C B = some O ∧
      norm3 (O - A) = norm3 (O - B) ∧ norm3 (O - C) = norm3 (O - B) := by
  have hdet : arcMatrixDet A C B ≠ 0 := arcMatrixDet_ne_zero hncol
  have hdet2 : (B.y - A.y) * (C.x - B.x) - (B.x - A.x) * (C.y - B.y) ≠ 0 := by
    rw [← arcMatrixDet_eq]; exact hdet
  simp only [arcCentre]
  rw [if_neg hdet]
  refine ⟨_, rfl, ?_, ?_⟩
  · unfold norm3
    apply congrArg Real.sqrt
    simp only [arcMatrixDet_eq, cross3, mnOUT, Vec3.add_x, Vec3.add_y, Vec3.add_z,
      Vec3.sub_x, Vec3.sub_y, Vec3.sub_z, Vec3.smul_x, Vec3.smul_y, Vec3.smul_z,
      Vec3.mk_x, Vec3.mk_y, Vec3.mk_z]
    field_simp
    ring
  · unfold norm3
    apply congrArg Real.sqrt
    simp only [arcMatrixDet_eq, cross3, mnOUT, Vec3.add_x, Vec3.add_y, Vec3.add_z,
      Vec3.sub_x, Vec3.sub_y, Vec3.sub_z, Vec3.smul_x, Vec3.smul_y, Vec3.smul_z,
      Vec3.mk_x, Vec3.mk_y, Vec3.mk_z]
    rw [hzA, hzC]
    field_simp
    ring

/-- C5.  For every same-height non-collinear triple (from-end, middle/waypoint,
to-end) the centre computed from the 2×2 perpendicular-bisector system is
equidistant from all three points, so the circle of the derived radius
(the distance from the centre to the waypoint) passes through all three points
— exactly, hence a fortiori within the 1e-6 floating-point tolerance. -/
theorem claim_C5_arc_circumcentre (A C B : Vec3) (hzA : A.z = B.z)
    (hzC : C.z = B.z) (hncol : ¬ collinearPts A B C) :
    ∃ O, arcCentre A C B = some O ∧
      norm3 (O - A) = norm3 (O - B) ∧ norm3 (O - C) = norm3 (O - B) ∧
      |norm3 (O - A) - norm3 (O - B)| ≤ 1e-6 ∧
      |norm3 (O - C) - norm3 (O - B)| ≤ 1e-6 := by
  obtain ⟨O, hO, h1, h2⟩ := arcCentre_equidistant A C B hzA hzC hncol
  exact ⟨O, hO, h1, h2, by rw [h1]; simp; norm_num, by rw [h2]; simp; norm_num⟩

/-- Witness for C5 at the triple (-1,0,0), (0,1,0), (1,0,0). -/
theorem claim_C5_arc_circumcentre_witness :
    ¬ collinearPts ⟨-1, 0, 0⟩ ⟨0, 1, 0⟩ ⟨1, 0, 0⟩ ∧
    ∃ O, arcCentre ⟨-1, 0, 0⟩ ⟨1, 0, 0⟩ ⟨0, 1, 0⟩ = some O ∧
      norm3 (O - ⟨-1, 0, 0⟩) = norm3 (O - ⟨0, 1, 0⟩) ∧
      norm3 (O - ⟨1, 0, 0⟩) = norm3 (O - ⟨0, 1, 0⟩) := by
  have hncol : ¬ collinearPts ⟨-1, 0, 0⟩ ⟨0, 1, 0⟩ ⟨1, 0, 0⟩ := by
    unfold collinearPts
    simp
  obtain ⟨O, hO, h1, h2, _, _⟩ :=
    claim_C5_arc_circumcentre ⟨-1, 0, 0⟩ ⟨1, 0, 0⟩ ⟨0, 1, 0⟩ rfl rfl hncol
  exact ⟨hncol, O, hO, h1, h2⟩


/-- C6, amended.  For every same-height non-collinear triple with the arcsin
argument in range, the swept angle is `2 * arcsin(chord / (2 * radius))` with
`radius` the distance from the computed circumcentre to the waypoint and
`chord` the distance between the terminal ends; it is always the non-reflex
solution, i.e. at most π — but not strictly less than π: it equals π exactly
when the chord is a diameter (chord = 2·radius), so "strictly less than π"
holds precisely when chord < 2·radius. -/
theorem claim_C6_arc_angle (A C B : Vec3) (hzA : A.z = B.z) (hzC : C.z = B.z)
    (hncol : ¬ collinearPts A B C)
    (hin : ∀ O, arcCentre A C B = some O →
      norm3 (C - A) ≤ 2 * norm3 (O - B)) :
    ∃ O θ, arcCentre A C B = some O ∧ getArcAngle A C B = some θ ∧
      θ = 2 * Real.arcsin (norm3 (C - A) / (2 * norm3 (O - B))) ∧
      θ ≤ Real.pi ∧
      (θ < Real.pi ↔ norm3 (C - A) < 2 * norm3 (O - B)) := by
  obtain ⟨O, hO, h1, h2⟩ := arcCentre_equidistant A C B hzA hzC hncol
  have hr : 0 < norm3 (O - B) := by
    rcases lt_or_eq_of_le (norm3_nonneg (O - B)) with h | h
    · exact h
    · exfalso
      have hOB : O = B := norm3_sub_eq_zero h.symm
      have hOA : O = A := norm3_sub_eq_zero (by rw [h1, ← h])
      have hBA : B = A := by rw [← hOB, hOA]
      apply hncol
      unfold collinearPts
      rw [hBA]
      simp
  have hangle : getArcAngle A C B =
      some (2 * Real.arcsin (norm3 (C - A) / (2 * norm3 (O - B)))) := by
    unfold getArcAngle
    rw [hO]
    rfl
  refine ⟨O, _, hO, hangle, rfl, ?_, ?_⟩
  · have h := Real.arcsin_le_pi_div_two (norm3 (C - A) / (2 * norm3 (O - B)))
    linarith
  · constructor
    · intro hlt
      have harc : Real.arcsin (norm3 (C - A) / (2 * norm3 (O - B)))
          < Real.pi / 2 := by linarith
      have hltone := Real.arcsin_lt_pi_div_two.mp harc
      rw [div_lt_one (by positivity)] at hltone
      exact hltone
    · intro hlt
      have hd : norm3 (C - A) / (2 * norm3 (O - B)) < 1 :=
        (div_lt_one (by positivity)).mpr hlt
      have h := Real.arcsin_lt_pi_div_two.mpr hd
      linarith

-- Concrete evaluation at a diameter configuration: from-end (-1,0,0),
-- to-end (1,0,0), waypoint (0,1,0); the circumcircle is the unit circle.

theorem norm3_diam_chord : norm3 ((⟨1, 0, 0⟩ : Vec3) - ⟨-1, 0, 0⟩) = 2 := by
  rw [show ((⟨1, 0, 0⟩ : Vec3) - ⟨-1, 0, 0⟩) = ⟨2, 0, 0⟩ by
    apply Vec3.ext <;> simp <;> norm_num]
  rw [norm3_axis_x]
  norm_num

theorem norm3_diam_radius : norm3 ((⟨0, 0, 0⟩ : Vec3) - ⟨0, 1, 0⟩) = 1 := by
  rw [show ((⟨0, 0, 0⟩ : Vec3) - ⟨0, 1, 0⟩) = ⟨0, -1, 0⟩ by
    apply Vec3.ext <;> simp]
  rw [norm3_axis_y]
  norm_num

theorem arcCentre_diameter_example :
    arcCentre ⟨-1, 0, 0⟩ ⟨1, 0, 0⟩ ⟨0, 1, 0⟩ = some ⟨0, 0, 0⟩ := by
  have hdet : arcMatrixDet ⟨-1, 0, 0⟩ ⟨1, 0, 0⟩ ⟨0, 1, 0⟩ = 2 := by
    rw [arcMatrixDet_eq]
    norm_num
  simp only [arcCentre]
  rw [if_neg (by rw [hdet]; norm_num)]
  rw [hdet]
  congr 1
  apply Vec3.ext <;> simp [cross3, mnOUT] <;> norm_num

theorem getArcAngle_diameter_example :
    getArcAngle ⟨-1, 0, 0⟩ ⟨1, 0, 0⟩ ⟨0, 1, 0⟩ = some Real.pi := by
  unfold getArcAngle
  rw [arcCentre_diameter_example]
  simp only [Option.map_some']
  congr 1
  rw [norm3_diam_chord, norm3_diam_radius]
  rw [show (2 : ℝ) / (2 * 1) = 1 by norm_num]
  rw [Real.arcsin_one]
  ring

theorem collinearPts_diameter_example :
    ¬ collinearPts ⟨-1, 0, 0⟩ ⟨0, 1, 0⟩ ⟨1, 0, 0⟩ := by
  unfold collinearPts
  simp

/-- Witness for C6 at the diameter configuration. -/
theorem claim_C6_arc_angle_witness :
    ¬ collinearPts ⟨-1, 0, 0⟩ ⟨0, 1, 0⟩ ⟨1, 0, 0⟩ ∧
    ∃ O θ, arcCentre ⟨-1, 0, 0⟩ ⟨1, 0, 0⟩ ⟨0, 1, 0⟩ = some O ∧
      getArcAngle ⟨-1, 0, 0⟩ ⟨1, 0, 0⟩ ⟨0, 1, 0⟩ = some θ ∧
      θ = 2 * Real.arcsin (norm3 ((⟨1, 0, 0⟩ : Vec3) - ⟨-1, 0, 0⟩) /
        (2 * norm3 (O - ⟨0, 1, 0⟩))) ∧
      θ ≤ Real.pi ∧
      (θ < Real.pi ↔
        norm3 ((⟨1, 0, 0⟩ : Vec3) - ⟨-1, 0, 0⟩) < 2 * norm3 (O - ⟨0, 1, 0⟩)) := by
  have hin : ∀ O, arcCentre ⟨-1, 0, 0⟩ ⟨1, 0, 0⟩ ⟨0, 1, 0⟩ = some O →
      norm3 ((⟨1, 0, 0⟩ : Vec3) - ⟨-1, 0, 0⟩) ≤ 2 * norm3 (O - ⟨0, 1, 0⟩) := by
    intro O h
    rw [arcCentre_diameter_example] at h
    have hO : O = ⟨0, 0, 0⟩ := (Option.some.inj h).symm
    subst hO
    rw [norm3_diam_chord, norm3_diam_radius]
    norm_num
  exact ⟨collinearPts_diameter_example,
    claim_C6_arc_angle ⟨-1, 0, 0⟩ ⟨1, 0, 0⟩ ⟨0, 1, 0⟩ rfl rfl
      collinearPts_diameter_example hin⟩

/-- Counterexample to C6 as stated: at the diameter configuration the solver
returns exactly π, which is not strictly less than π. -/
theorem claim_C6_counterexample :
    getArcAngle ⟨-1, 0, 0⟩ ⟨1, 0, 0⟩ ⟨0, 1, 0⟩ = some Real.pi ∧
    ¬ Real.pi < Real.pi :=
  ⟨getArcAngle_diameter_example, lt_irrefl _⟩


-- The Node terminal collection (`Node.get`).

theorem norm3_smul (c : ℝ) (v : Vec3) : norm3 (c • v) = |c| * norm3 v := by
  unfold norm3
  simp only [Vec3.smul_x, Vec3.smul_y, Vec3.smul_z]
  rw [show (c * v.x) ^ 2 + (c * v.y) ^ 2 + (c * v.z) ^ 2
      = c ^ 2 * (v.x ^ 2 + v.y ^ 2 + v.z ^ 2) by ring]
  rw [Real.sqrt_mul (sq_nonneg c), Real.sqrt_sq_eq_abs]

/-- `np.allclose` on two 3-vectors with numpy's default tolerances
(`rtol = 1e-5`, `atol = 1e-8`), as used by `Node.get` to deduplicate terminal
directions. -/
def allclose3 (a b : Vec3) : Prop :=
  |a.x - b.x| ≤ 1e-8 + 1e-5 * |b.x| ∧
  |a.y - b.y| ≤ 1e-8 + 1e-5 * |b.y| ∧
  |a.z - b.z| ≤ 1e-8 + 1e-5 * |b.z|

theorem allclose3_refl (a : Vec3) : allclose3 a a := by
  unfold allclose3
  refine ⟨?_, ?_, ?_⟩ <;> simp <;> positivity

/-- The direction argument of `Node.get`: either a direction vector or an angle
in radians. -/
inductive NodeDirection where
  | vec (v : Vec3)
  | angle (theta : ℝ)

/-- The normalisation `Node.get` applies to its argument: an angle becomes
`rotate_vector(RIGHT, angle)`, a vector is passed through `manim.normalize`. -/
def resolveDirection : NodeDirection → Vec3
  | NodeDirection.vec v => mnNormalize v
  | NodeDirection.angle theta => rotateVector ⟨1, 0, 0⟩ theta

theorem resolve_renormalise (d : NodeDirection) :
    (1 / norm3 (resolveDirection d)) • resolveDirection d = resolveDirection d := by
  cases d with
  | vec v =>
      simp only [resolveDirection]
      unfold mnNormalize
      by_cases h : 0 < norm3 v
      · rw [if_pos h]
        have hn : norm3 ((1 / norm3 v) • v) = 1 := by
          rw [norm3_smul, abs_of_pos (by positivity)]
          field_simp
        rw [hn]
        apply Vec3.ext <;> simp
      · rw [if_neg h]
        apply Vec3.ext <;> simp
  | angle theta =>
      simp only [resolveDirection]
      have hn : norm3 (rotateVector ⟨1, 0, 0⟩ theta) = 1 := by
        unfold rotateVector norm3
        simp only [Vec3.mk_x, Vec3.mk_y, Vec3.mk_z]
        rw [show (Real.cos theta * 1 - Real.sin theta * 0) ^ 2 +
            (Real.sin theta * 1 + Real.cos theta * 0) ^ 2 + 0 ^ 2
            = Real.sin theta ^ 2 + Real.cos theta ^ 2 by ring]
        rw [Real.sin_sq_add_cos_sq, Real.sqrt_one]
      rw [hn]
      apply Vec3.ext <;> simp

/-- A `Node`: its centre and its dynamically grown terminal collection.  The
`nextId` counter supplies the model identity of a newly constructed `Terminal`
object. -/
structure Node where
  centre : Vec3
  terminals : List Terminal
  nextId : ℕ

/-- `Node.get(direction)`: normalise the requested direction, return the first
existing terminal whose direction is `np.allclose` to it, and otherwise create
a new terminal at the node centre and append it to the collection. -/
def nodeGet (n : Node) (d : NodeDirection) : Terminal × Node :=
  let dir := resolveDirection d
  match n.terminals.find? (fun t => decide (allclose3 t.direction dir)) with
  | some t => (t, n)
  | none =>
      let t := Terminal.make n.nextId n.centre dir
      (t, { n with terminals := n.terminals ++ [t], nextId := n.nextId + 1 })

/-- C9.  `Node.get` deduplicates terminals by direction: a second call with the
same requested direction (as a vector or as the equivalent angle) returns the
very terminal returned by the first call and leaves the node's terminal
collection (and the whole node state) unchanged. -/
theorem claim_C9_node_get_dedup (n : Node) (d1 d2 : NodeDirection)
    (hd : resolveDirection d1 = resolveDirection d2) :
    nodeGet (nodeGet n d1).2 d2 = ((nodeGet n d1).1, (nodeGet n d1).2) := by
  cases hfind : n.terminals.find?
      (fun t => decide (allclose3 t.direction (resolveDirection d1))) with
  | some t =>
      have h1 : nodeGet n d1 = (t, n) := by
        simp only [nodeGet, hfind]
      have h2 : nodeGet n d2 = (t, n) := by
        simp only [nodeGet, ← hd, hfind]
      rw [h1]
      exact h2
  | none =>
      have h1 : nodeGet n d1 =
          (Terminal.make n.nextId n.centre (resolveDirection d1),
           { n with
              terminals := n.terminals ++
                [Terminal.make n.nextId n.centre (resolveDirection d1)],
              nextId := n.nextId + 1 }) := by
        simp only [nodeGet, hfind]
      have hpt : (fun t => decide (allclose3 t.direction (resolveDirection d1)))
          (Terminal.make n.nextId n.centre (resolveDirection d1)) = true := by
        have hdir : (Terminal.make n.nextId n.centre
            (resolveDirection d1)).direction = resolveDirection d1 := by
          show (1 / norm3 (resolveDirection d1)) • resolveDirection d1
              = resolveDirection d1
          exact resolve_renormalise d1
        simp only [hdir]
        exact decide_eq_true (allclose3_refl _)
      have h2 : nodeGet
          ({ n with
              terminals := n.terminals ++
                [Terminal.make n.nextId n.centre (resolveDirection d1)],
              nextId := n.nextId + 1 } : Node) d2 =
          (Terminal.make n.nextId n.centre (resolveDirection d1),
           { n with
              terminals := n.terminals ++
                [Terminal.make n.nextId n.centre (resolveDirection d1)],
              nextId := n.nextId + 1 }) := by
        simp only [nodeGet, ← hd]
        rw [List.find?_append, hfind]
        simp only [Option.none_or]
        rw [List.find?_singleton, if_pos hpt]
      rw [h1]
      exact h2


/-- Witness for C9: requesting the rightward direction twice — once as the
vector (1,0,0) and once as the angle 0 — on an initially terminal-less node. -/
theorem claim_C9_node_get_dedup_witness :
    resolveDirection (NodeDirection.vec ⟨1, 0, 0⟩)
      = resolveDirection (NodeDirection.angle 0) ∧
    nodeGet (nodeGet (Node.mk ⟨0, 0, 0⟩ [] 0) (NodeDirection.vec ⟨1, 0, 0⟩)).2
        (NodeDirection.angle 0)
      = ((nodeGet (Node.mk ⟨0, 0, 0⟩ [] 0) (NodeDirection.vec ⟨1, 0, 0⟩)).1,
         (nodeGet (Node.mk ⟨0, 0, 0⟩ [] 0) (NodeDirection.vec ⟨1, 0, 0⟩)).2) := by
  have h1 : mnNormalize ⟨1, 0, 0⟩ = ⟨1, 0, 0⟩ := by
    unfold mnNormalize
    rw [norm3_axis_x, show |(1:ℝ)| = 1 from abs_one, if_pos one_pos]
    apply Vec3.ext <;> simp
  have h2 : rotateVector ⟨1, 0, 0⟩ 0 = ⟨1, 0, 0⟩ := by
    unfold rotateVector
    apply Vec3.ext <;> simp
  have hd : resolveDirection (NodeDirection.vec ⟨1, 0, 0⟩)
      = resolveDirection (NodeDirection.angle 0) := by
    simp only [resolveDirection]
    rw [h1, h2]
  exact ⟨hd, claim_C9_node_get_dedup _ _ _ hd⟩

-- The circuit bookkeeping layer (`Circuit.disconnect` / `Circuit.isolate`).

/-- A wire as the circuit layer sees it: the two terminals at its ends. -/
structure WireRecord where
  fromTerminal : Terminal
  toTerminal : Terminal

/-- Modelled from the spec: `Terminal._decrement_connection_count`, whose body is
absent from the sources (only its caller `WireBase.detach` is present); it
decrements the terminal's connection count by one.  Connection counts are kept
here as a map from terminal identity to count. -/
def decrementCount (counts : ℕ → ℤ) (i : ℕ) : ℕ → ℤ :=
  fun j => if j = i then counts j - 1 else counts j

/-- `WireBase.detach`: decrement the connection count of the from-terminal, then
of the to-terminal. -/
def detachWire (w : WireRecord) (counts : ℕ → ℤ) : ℕ → ℤ :=
  decrementCount (decrementCount counts w.fromTerminal.id) w.toTerminal.id

/-- The circuit state the two removal operations touch: the identities of the
terminals owned by the circuit's components, the wire collection, and the
per-terminal connection counts. -/
structure Circuit where
  ownedIds : List ℕ
  wires : List WireRecord
  connectionCounts : ℕ → ℤ

/-- Python's `wire.from_terminal in terminals` membership test (identity-based,
hence by terminal id). -/
def terminalSelected (sel : List Terminal) (t : Terminal) : Bool :=
  sel.any fun s => s.id == t.id

/-- The `ValueError` of `Circuit.__check_terminals_all_belong_to_this_circuit`. -/
def ownershipErrorMessage : String :=
  "At least one passed terminal does not belong to any component in this circuit."

/-- `Circuit.disconnect`: after the ownership check, remove every wire both of
whose ends are selected, and call `detach` on each removed wire. -/
def disconnect (c : Circuit) (sel : List Terminal) : Except String Circuit :=
  if ∀ s ∈ sel, s.id ∈ c.ownedIds then
    Except.ok
      { c with
        wires := c.wires.filter fun w =>
          !(terminalSelected sel w.fromTerminal &&
            terminalSelected sel w.toTerminal),
        connectionCounts :=
          (c.wires.filter fun w =>
            terminalSelected sel w.fromTerminal &&
            terminalSelected sel w.toTerminal).foldl
            (fun counts w => detachWire w counts) c.connectionCounts }
  else Except.error ownershipErrorMessage

/-- `Circuit.isolate`: after the ownership check, remove every wire either of
whose ends is selected; no `detach` is performed, so the connection counts are
left untouched. -/
def isolate (c : Circuit) (sel : List Terminal) : Except String Circuit :=
  if ∀ s ∈ sel, s.id ∈ c.ownedIds then
    Except.ok
      { c with
        wires := c.wires.filter fun w =>
          !(terminalSelected sel w.fromTerminal ||
            terminalSelected sel w.toTerminal) }
  else Except.error ownershipErrorMessage

/-- The number of endpoints (0, 1 or 2 per wire) with identity `i` among a list
of wires. -/
def endpointOccurrences (ws : List WireRecord) (i : ℕ) : ℤ :=
  (ws.map fun w =>
    (if i = w.fromTerminal.id then (1 : ℤ) else 0) +
    (if i = w.toTerminal.id then (1 : ℤ) else 0)).sum

theorem detachWire_apply (w : WireRecord) (counts : ℕ → ℤ) (i : ℕ) :
    detachWire w counts i = counts i -
      ((if i = w.fromTerminal.id then (1 : ℤ) else 0) +
       (if i = w.toTerminal.id then (1 : ℤ) else 0)) := by
  unfold detachWire decrementCount
  split_ifs <;> ring

theorem foldl_detachWire (ws : List WireRecord) (counts : ℕ → ℤ) (i : ℕ) :
    (ws.foldl (fun cs w => detachWire w cs) counts) i =
      counts i - endpointOccurrences ws i := by
  induction ws generalizing counts with
  | nil => simp [endpointOccurrences]
  | cons w ws ih =>
      simp only [List.foldl_cons]
      rw [ih, detachWire_apply]
      unfold endpointOccurrences
      simp only [List.map_cons, List.sum_cons]
      ring

/-- C10.  `Circuit.isolate` removes exactly the wires with a selected terminal
at either end but never detaches them, so every terminal's connection count is
unchanged; `Circuit.disconnect` removes exactly the wires with both ends
selected and detaches each of them, decrementing both end terminals' connection
counts (one decrement per removed endpoint occurrence). -/
theorem claim_C10_isolate_vs_disconnect (c : Circuit) (sel : List Terminal)
    (hown : ∀ s ∈ sel, s.id ∈ c.ownedIds) :
    (∃ ci, isolate c sel = Except.ok ci ∧
      (∀ w, w ∈ ci.wires ↔ w ∈ c.wires ∧
        (terminalSelected sel w.fromTerminal ||
         terminalSelected sel w.toTerminal) = false) ∧
      (∀ i, ci.connectionCounts i = c.connectionCounts i)) ∧
    (∃ cd, disconnect c sel = Except.ok cd ∧
      (∀ w, w ∈ cd.wires ↔ w ∈ c.wires ∧
        (terminalSelected sel w.fromTerminal &&
         terminalSelected sel w.toTerminal) = false) ∧
      (∀ i, cd.connectionCounts i = c.connectionCounts i -
        endpointOccurrences
          (c.wires.filter fun w =>
            terminalSelected sel w.fromTerminal &&
            terminalSelected sel w.toTerminal) i)) := by
  constructor
  · refine ⟨{ c with wires := c.wires.filter fun w =>
        !(terminalSelected sel w.fromTerminal ||
          terminalSelected sel w.toTerminal) }, ?_, ?_, ?_⟩
    · unfold isolate
      rw [if_pos hown]
    · intro w
      show w ∈ List.filter _ c.wires ↔ _
      simp only [List.mem_filter, Bool.not_eq_true']
    · intro i
      rfl
  · refine ⟨{ c with
        wires := c.wires.filter fun w =>
          !(terminalSelected sel w.fromTerminal &&
            terminalSelected sel w.toTerminal),
        connectionCounts :=
          (c.wires.filter fun w =>
            terminalSelected sel w.fromTerminal &&
            terminalSelected sel w.toTerminal).foldl
            (fun counts w => detachWire w counts) c.connectionCounts }, ?_, ?_, ?_⟩
    · unfold disconnect
      rw [if_pos hown]
    · intro w
      show w ∈ List.filter _ c.wires ↔ _
      simp only [List.mem_filter, Bool.not_eq_true']
    · intro i
      exact foldl_detachWire _ _ i

/-- Witness for C10: a one-wire circuit with both terminals owned, isolating by
the from-terminal. -/
theorem claim_C10_isolate_vs_disconnect_witness :
    (∀ s ∈ [Terminal.mk 0 ⟨0, 0, 0⟩ ⟨1, 0, 0⟩],
      s.id ∈ (Circuit.mk [0, 1]
        [WireRecord.mk (Terminal.mk 0 ⟨0, 0, 0⟩ ⟨1, 0, 0⟩)
          (Terminal.mk 1 ⟨1, 0, 0⟩ ⟨-1, 0, 0⟩)] fun _ => 1).ownedIds) ∧
    (∃ ci, isolate (Circuit.mk [0, 1]
        [WireRecord.mk (Terminal.mk 0 ⟨0, 0, 0⟩ ⟨1, 0, 0⟩)
          (Terminal.mk 1 ⟨1, 0, 0⟩ ⟨-1, 0, 0⟩)] fun _ => 1)
        [Terminal.mk 0 ⟨0, 0, 0⟩ ⟨1, 0, 0⟩] = Except.ok ci ∧
      (∀ i, ci.connectionCounts i =
        (Circuit.mk [0, 1]
          [WireRecord.mk (Terminal.mk 0 ⟨0, 0, 0⟩ ⟨1, 0, 0⟩)
            (Terminal.mk 1 ⟨1, 0, 0⟩ ⟨-1, 0, 0⟩)]
          fun _ => (1 : ℤ)).connectionCounts i)) := by
  have hown : ∀ s ∈ [Terminal.mk 0 ⟨0, 0, 0⟩ ⟨1, 0, 0⟩],
      s.id ∈ (Circuit.mk [0, 1]
        [WireRecord.mk (Terminal.mk 0 ⟨0, 0, 0⟩ ⟨1, 0, 0⟩)
          (Terminal.mk 1 ⟨1, 0, 0⟩ ⟨-1, 0, 0⟩)] fun _ => 1).ownedIds := by
    simp
  obtain ⟨⟨ci, hci, _, hcount⟩, _⟩ :=
    claim_C10_isolate_vs_disconnect _ _ hown
  exact ⟨hown, ci, hci, hcount⟩

end
